import Mathlib

/-!
# TFTP packet codec (`udp/tftp/types.go`)

A shallow embedding of the read-request and data packet codec, followed by the
properties established for it. The transfer session that drives the codec is not part
of the source; where a property needs it, it is modelled from the specification and
marked as such.

Conventions of the embedding:

* a Go `string` or `[]byte` is a `List Nat` of byte values (each below 256);
* a `*bytes.Buffer` that is only read is the list of its unread bytes, one that is
  only written is the list of bytes written so far;
* a method with a pointer receiver returns the receiver as it is left by the call,
  next to the method's own results;
* a Go `error` is `Option Error`, `none` being `nil`.
-/

namespace Tftp

/-! ## Go values and library functions used by the codec -/

/-- Go error values met in the codec: `io.EOF`, `io.ErrUnexpectedEOF`, and
`errors.New msg`, told apart by message. -/
inductive Error where
  | EOF
  | ErrUnexpectedEOF
  | New (msg : String)
  deriving DecidableEq, Repr

deriving instance DecidableEq for Except

/-- The bytes of the Go string literal `"octet"`. -/
def octet : List Nat := [111, 99, 116, 101, 116]

/-- `binary.BigEndian.PutUint16`: the two bytes of a `uint16`, high byte first. -/
def PutUint16 (v : Nat) : List Nat :=
  [v / 2 ^ 8 % 256, v % 256]

/-- `binary.BigEndian.PutUint64`: the eight bytes of a `uint64`, high byte first. -/
def PutUint64 (v : Nat) : List Nat :=
  [v / 2 ^ 56 % 256, v / 2 ^ 48 % 256, v / 2 ^ 40 % 256, v / 2 ^ 32 % 256,
   v / 2 ^ 24 % 256, v / 2 ^ 16 % 256, v / 2 ^ 8 % 256, v % 256]

/-- `binary.BigEndian.Uint64`: the `uint64` held by a run of bytes, high byte first. -/
def Uint64 (b : List Nat) : Nat :=
  b.foldl (fun acc x => acc * 256 + x) 0

/-- `binary.Read(r, binary.BigEndian, &v)` for a `v` whose underlying type is `uint64`:
`io.ReadFull` of eight bytes from the buffer `r`, then the big-endian decoding.
An empty buffer gives `io.EOF`, one with 1 to 7 bytes `io.ErrUnexpectedEOF`.
The result is the value read and the unread rest of the buffer. -/
def binaryReadUint64 (r : List Nat) : Except Error (Nat × List Nat) :=
  if r.length = 0 then .error Error.EOF
  else if r.length < 8 then .error Error.ErrUnexpectedEOF
  else .ok (Uint64 (r.take 8), r.drop 8)

/-- `(*bytes.Buffer).ReadString(delim)`: the bytes up to and including the first
`delim`, no error, and the rest; without a `delim` in the buffer, all of its bytes
together with `io.EOF`, leaving the buffer empty. -/
def ReadString : List Nat → Nat → List Nat × Option Error × List Nat
  | [], _ => ([], some Error.EOF, [])
  | b :: rest, delim =>
    if b = delim then ([b], none, rest)
    else
      let res := ReadString rest delim
      (b :: res.1, res.2.1, res.2.2)

/-- `strings.TrimRight(s, cutset)` for a cutset of the single byte `c`: `s` without
its trailing run of `c`. -/
def TrimRight (s : List Nat) (c : Nat) : List Nat :=
  s.rdropWhile (fun b => b == c)

/-- The ASCII branch of `strings.ToLower`: bytes `'A'..'Z'` are moved to `'a'..'z'`,
every other byte is kept. -/
def lowerASCII (s : List Nat) : List Nat :=
  s.map (fun c => if 65 ≤ c ∧ c ≤ 90 then c + 32 else c)

/-- `strings.ToLower(s)`. A string with no byte at or above `utf8.RuneSelf` (0x80) is
lowered byte by byte. Any other string goes through `strings.Map(unicode.ToLower, s)`,
which depends on the Unicode case tables of the Go library; that function is the
parameter `unicodeLower`. -/
def ToLower (unicodeLower : List Nat → List Nat) (s : List Nat) : List Nat :=
  if s.all (fun c => c < 128) then lowerASCII s else unicodeLower s

/-! ## Constants and types of the package -/

/-- TFTP limits datagram packets to 516 bytes or fewer: max supported size. -/
def DatagramSize : Nat := 516

/-- Payload bytes per data packet: `DatagramSize - 4`. -/
def BlockSize : Nat := DatagramSize - 4

/-- The declaration `type OpCode uint64`: an operation code is a 64-bit unsigned
integer. -/
abbrev OpCode := Nat

/-- Read request: `iota + 1` on the first line of the constant block. -/
def OpRRQ : OpCode := 0 + 1

/-- The blank second line of the block (no WRQ support) takes the value 2. -/
def OpWRQ : OpCode := 1 + 1

/-- Third line of the constant block. -/
def OpData : OpCode := 2 + 1

/-- Fourth line of the constant block. -/
def OpAck : OpCode := 3 + 1

/-- Fifth line of the constant block. -/
def OpErr : OpCode := 4 + 1

/-- The declaration `type ErrCode uint16`. -/
abbrev ErrCode := Nat

/-- First line of the error-code block: `iota`. -/
def ErrUnknown : ErrCode := 0

/-- Second line of the error-code block. -/
def ErrNotFound : ErrCode := 1

/-- Third line of the error-code block. -/
def ErrAccessViolation : ErrCode := 2

/-- Fourth line of the error-code block. -/
def ErrDiskFull : ErrCode := 3

/-- Fifth line of the error-code block. -/
def ErrIllegalOp : ErrCode := 4

/-- Sixth line of the error-code block. -/
def ErrUnknownID : ErrCode := 5

/-- Seventh line of the error-code block. -/
def ErrFileExists : ErrCode := 6

/-- Eighth line of the error-code block. -/
def ErrNoUser : ErrCode := 7

/-- `binary.Write(b, binary.BigEndian, code)` for an `OpCode`: as the type is a
`uint64`, eight bytes are appended to the buffer. Writing to a `bytes.Buffer`
returns no error. -/
def binaryWriteOpCode (b : List Nat) (code : OpCode) : List Nat :=
  b ++ PutUint64 code

/-- `binary.Write(b, binary.BigEndian, v)` for a `uint16`: two bytes are appended. -/
def binaryWriteUint16 (b : List Nat) (v : Nat) : List Nat :=
  b ++ PutUint16 v

/-- The struct `ReadReq`. -/
structure ReadReq where
  Filename : List Nat
  Mode : List Nat
  deriving DecidableEq, Repr

/-! ## Read requests -/

/-- `func (q ReadReq) MarshalBinary() ([]byte, error)`. The four writes go to a
`bytes.Buffer` and cannot fail; `cap` only sizes the buffer and is not in the result. -/
def ReadReq.MarshalBinary (q : ReadReq) : Except Error (List Nat) :=
  let mode := if q.Mode ≠ [] then q.Mode else octet
  let b : List Nat := []
  let b := binaryWriteOpCode b OpRRQ
  let b := b ++ q.Filename
  let b := b ++ [0]
  let b := b ++ mode
  .ok b

/-- `func (q *ReadReq) UnmarshalBinary(p []byte) error`: the receiver after the call
and the error returned. The fields are assigned as the source assigns them, also on
the paths that end in an error. -/
def ReadReq.UnmarshalBinary (unicodeLower : List Nat → List Nat) (q : ReadReq)
    (p : List Nat) : ReadReq × Option Error :=
  match binaryReadUint64 p with
  | .error err => (q, some err)
  | .ok (code, r) =>
    if code ≠ OpRRQ then (q, some (Error.New "invalid RRQ"))
    else
      let rd := ReadString r 0
      let q := { q with Filename := rd.1 }
      if rd.2.1 ≠ none then (q, some (Error.New "invalid RRQ"))
      else
        let q := { q with Filename := TrimRight q.Filename 0 }
        if q.Filename.length = 0 then (q, some (Error.New "invalid RRQ"))
        else
          let rd := ReadString rd.2.2 0
          let q := { q with Mode := rd.1 }
          if rd.2.1 ≠ none then (q, some (Error.New "invalid RRQ"))
          else
            let q := { q with Mode := TrimRight q.Mode 0 }
            if q.Mode.length = 0 then (q, some (Error.New "invalid RRQ"))
            else
              let actual := ToLower unicodeLower q.Mode
              if actual ≠ octet then
                (q, some (Error.New "only binary transfers supported"))
              else (q, none)

/-! ## Data packets -/

/-- The `io.Reader` behind `Data.Payload`, as a sequential source: `data` are the
bytes it has yet to deliver, one call of `Read` hands out at most `chunk + 1` of them
(a reader may return fewer bytes than asked for), and once `data` is used up `Read`
reports `io.EOF` when `fail` is `none` and the error `e` when `fail` is `some e`.
The contract of `io.Reader` lets a reader report that error either from the call
that hands out its last bytes or from the call after it: `eager` says which. -/
structure Reader where
  data : List Nat
  chunk : Nat
  fail : Option Error
  eager : Bool
  deriving DecidableEq, Repr

/-- The error a payload source reports once its bytes are used up. -/
def Reader.atEnd (r : Reader) : Error := r.fail.getD Error.EOF

/-- `Read(p)` on the payload source for a slice `p` of `len` bytes: the bytes
stored into `p`, the error, and the source afterwards. -/
def Reader.Read (r : Reader) (len : Nat) : List Nat × Option Error × Reader :=
  match r.data with
  | [] => ([], some r.atEnd, r)
  | _ :: _ =>
    let k := min len (r.chunk + 1)
    let rest := r.data.drop k
    (r.data.take k, if r.eager = true ∧ rest = [] then some r.atEnd else none,
      { r with data := rest })

/-- The struct `io.LimitedReader`: the underlying reader `R` and the bytes `N`
that may still be read from it. -/
structure LimitedReader where
  R : Reader
  N : Nat
  deriving DecidableEq, Repr

/-- `(*io.LimitedReader).Read(p)` for a slice of `len` bytes: `io.EOF` once `N` is
used up, otherwise a read of the underlying reader into at most `N` bytes of `p`. -/
def LimitedReader.Read (l : LimitedReader) (len : Nat) :
    List Nat × Option Error × LimitedReader :=
  if l.N ≤ 0 then ([], some Error.EOF, l)
  else
    let len := if len > l.N then l.N else len
    let res := l.R.Read len
    (res.1, res.2.1, { R := res.2.2, N := l.N - res.1.length })

/-- `bytes.MinRead`: the free space `ReadFrom` secures before each `Read`. -/
def MinRead : Nat := 512

/-- `(*bytes.Buffer).ReadFrom(r)` for a limited reader: the loop that reads from `r`
and appends to the buffer `b` until `r` reports `io.EOF` (returned as no error) or
another error. `n` counts the bytes appended so far. The result is the buffer, the
reader, the count and the error. The slice handed to `Read` has at least `MinRead`
free bytes; the codec limits the reader to `BlockSize = MinRead` bytes, so it is the
limited reader's cut to its own `N` that sizes every read. -/
def ReadFrom (b : List Nat) (l : LimitedReader) (n : Nat) :
    List Nat × LimitedReader × Nat × Option Error :=
  match h : l.Read MinRead with
  | (p, some Error.EOF, l') => (b ++ p, l', n + p.length, none)
  | (p, some e, l') => (b ++ p, l', n + p.length, some e)
  | (p, none, l') => ReadFrom (b ++ p) l' (n + p.length)
termination_by l.N
decreasing_by
  obtain ⟨⟨data, chunk, fail, eager⟩, N⟩ := l
  cases data with
  | nil =>
    simp only [LimitedReader.Read, Reader.Read] at h
    split at h <;> simp at h
  | cons x xs =>
    simp only [LimitedReader.Read, Reader.Read] at h
    split at h
    · simp at h
    · simp only [Prod.mk.injEq] at h
      obtain ⟨_, _, hl⟩ := h
      subst hl
      simp only [MinRead, List.length_take, List.length_cons]
      split <;> omega

/-- `io.CopyN(dst, src, n)` with a `*bytes.Buffer` as `dst`: `io.Copy` from
`io.LimitReader(src, n)`, which is the buffer's `ReadFrom`. The result is the
buffer, the source afterwards, the number of bytes written and the error. -/
def ioCopyN (dst : List Nat) (src : Reader) (n : Nat) :
    List Nat × Reader × Nat × Option Error :=
  let res := ReadFrom dst { R := src, N := n } 0
  let written := res.2.2.1
  let err := res.2.2.2
  if written = n then (res.1, res.2.1.R, n, none)
  else if written < n ∧ err = none then (res.1, res.2.1.R, written, some Error.EOF)
  else (res.1, res.2.1.R, written, err)

/-- The struct `Data`: `Block` is a `uint16`, `Payload` a (non-nil) `io.Reader`. -/
structure Data where
  Block : Nat
  Payload : Reader
  deriving DecidableEq, Repr

/-- `func (d *Data) MarshalBinary() ([]byte, error)`: the receiver after the call
(block counter incremented as a `uint16`, payload source advanced) and the result.
The two `binary.Write` calls go to a `bytes.Buffer` and cannot fail. -/
def Data.MarshalBinary (d : Data) : Data × Except Error (List Nat) :=
  let b : List Nat := []
  let d := { d with Block := (d.Block + 1) % 65536 }
  let b := binaryWriteOpCode b OpData
  let b := binaryWriteUint16 b d.Block
  let res := ioCopyN b d.Payload BlockSize
  let d := { d with Payload := res.2.1 }
  match res.2.2.2 with
  | none => (d, .ok res.1)
  | some Error.EOF => (d, .ok res.1)
  | some err => (d, .error err)

/-- The receiver after `i` consecutive calls of `Data.MarshalBinary` on it. -/
def Data.after (d : Data) : Nat → Data
  | 0 => d
  | i + 1 => (Data.after d i).MarshalBinary.1

/-- The `i`-th run of `BlockSize` bytes of a byte string, counted from 0; the last
run may be shorter. -/
def blockOf (content : List Nat) (i : Nat) : List Nat :=
  (content.drop (i * BlockSize)).take BlockSize

/-! ## Transfer session -/

/-- Modelled from the spec: the states of a transfer session (section 4.2). The
session and its state machine are missing from `udp/tftp/types.go`, which stops at
the encoder of data packets. -/
inductive SessionState where
  | AwaitingFirstSend
  | AwaitingAck
  | Complete
  | Failed
  deriving DecidableEq, Repr

/-- Modelled from the spec: a datagram a session hands over for transmission, missing
from the source like the session itself: a Data packet as encoded by
`Data.MarshalBinary`, or an Error packet, of which only the code is kept. -/
inductive Sent where
  | data (bytes : List Nat)
  | error (code : ErrCode)
  deriving DecidableEq, Repr

/-- Modelled from the spec: the transfer session of section 3, missing from the
source. `data` holds the current block and the data source (`Data.Block` and
`Data.Payload` of the codec), `maxRetries` is the configured retry count,
`lastPayloadSize` the payload size of the block sent last. -/
structure TransferSession where
  clientAddress : List Nat
  state : SessionState
  data : Data
  retriesRemaining : Nat
  maxRetries : Nat
  lastSentPacket : List Nat
  lastPayloadSize : Nat
  deriving DecidableEq, Repr

/-- Modelled from the spec: what a session reacts to in section 4.2, missing from the
source: its start, an acknowledgment with its block number, the expiry of the ack
timeout, and an inbound packet that fails to decode. -/
inductive SessionEvent where
  | start
  | ack (block : Nat)
  | timeout
  | malformed
  deriving DecidableEq, Repr

/-- Modelled from the spec: the sending step of transitions 1, 2 and 5 of section
4.2, missing from the source: encode the next Data block, send it, keep its bytes
for retransmission and reset the retry counter; on a read error of the data source
go to `Failed` and send an Error packet with code DiskFull. -/
def TransferSession.sendNext (s : TransferSession) : TransferSession × List Sent :=
  let r := s.data.MarshalBinary
  match r.2 with
  | .ok pkt =>
    ({ s with
        state := SessionState.AwaitingAck
        data := r.1
        retriesRemaining := s.maxRetries
        lastSentPacket := pkt
        lastPayloadSize := s.data.Payload.data.length - r.1.Payload.data.length },
      [Sent.data pkt])
  | .error _ => ({ s with state := SessionState.Failed, data := r.1 }, [Sent.error ErrDiskFull])

/-- Modelled from the spec: the state machine of section 4.2, missing from the
source: the session after an event and the packets it sends. Transition 1 (start),
2 (ack for the current block: complete after a short block, else send the next
one), 3 (ack for any other block: ignored), 4 (timeout: resend while retries remain,
else fail silently), 5 (read error, inside `sendNext`) and 6 (malformed packet).
Events that no transition names leave the session as it is. -/
def TransferSession.step (s : TransferSession) : SessionEvent → TransferSession × List Sent
  | SessionEvent.start =>
    if s.state = SessionState.AwaitingFirstSend then s.sendNext else (s, [])
  | SessionEvent.ack block =>
    if s.state = SessionState.AwaitingAck then
      if block = s.data.Block then
        if s.lastPayloadSize < BlockSize then
          ({ s with state := SessionState.Complete }, [])
        else s.sendNext
      else (s, [])
    else (s, [])
  | SessionEvent.timeout =>
    if s.state = SessionState.AwaitingAck then
      if 0 < s.retriesRemaining then
        ({ s with retriesRemaining := s.retriesRemaining - 1 }, [Sent.data s.lastSentPacket])
      else ({ s with state := SessionState.Failed }, [])
    else (s, [])
  | SessionEvent.malformed =>
    if s.state = SessionState.AwaitingAck then
      ({ s with state := SessionState.Failed }, [Sent.error ErrIllegalOp])
    else (s, [])

/-! ## Library functions: basic facts -/

theorem ReadString_of_not_mem (s : List Nat) (d : Nat) (h : d ∉ s) :
    ReadString s d = (s, some Error.EOF, []) := by
  induction s with
  | nil => rfl
  | cons x xs ih =>
    have hx : x ≠ d := fun e => h (by simp [e])
    have hxs : d ∉ xs := fun e => h (by simp [e])
    simp [ReadString, hx, ih hxs]

theorem ReadString_append (f t : List Nat) (d : Nat) (h : d ∉ f) :
    ReadString (f ++ d :: t) d = (f ++ [d], none, t) := by
  induction f with
  | nil => simp [ReadString]
  | cons x xs ih =>
    have hx : x ≠ d := fun e => h (by simp [e])
    have hxs : d ∉ xs := fun e => h (by simp [e])
    simp [ReadString, hx, ih hxs]

theorem TrimRight_of_not_mem (s : List Nat) (c : Nat) (h : c ∉ s) :
    TrimRight s c = s := by
  unfold TrimRight
  rw [List.rdropWhile_eq_self_iff]
  intro hl hp
  have hmem := List.getLast_mem hl
  simp only [beq_iff_eq] at hp
  exact h (hp ▸ hmem)

theorem TrimRight_concat (s : List Nat) (c : Nat) (h : c ∉ s) :
    TrimRight (s ++ [c]) c = s := by
  have := TrimRight_of_not_mem s c h
  unfold TrimRight at this ⊢
  rw [List.rdropWhile_concat]
  simp [this]

theorem binaryReadUint64_PutUint64 (rest : List Nat) :
    binaryReadUint64 (PutUint64 OpRRQ ++ rest) = .ok (OpRRQ, rest) := by
  simp [binaryReadUint64, PutUint64, OpRRQ, Uint64]

/-- A buffer whose first two bytes are not both 0 never holds the operation code 1 in
its first eight bytes: reading the code fails when fewer than eight bytes are there,
and the code read is at least `256 ^ 6` otherwise. -/
theorem binaryReadUint64_prefix (a b : Nat) (rest : List Nat) (h : a ≠ 0 ∨ b ≠ 0) :
    (rest.length < 6 ∧ binaryReadUint64 (a :: b :: rest) = .error Error.ErrUnexpectedEOF) ∨
    (∃ code r, binaryReadUint64 (a :: b :: rest) = .ok (code, r) ∧ code ≠ OpRRQ) := by
  by_cases hl : rest.length < 6
  · left
    refine ⟨hl, ?_⟩
    have : rest.length + 1 + 1 < 8 := by omega
    simp [binaryReadUint64, this]
  · right
    match rest, hl with
    | c :: d :: e :: f :: g :: i :: r, _ =>
      refine ⟨Uint64 [a, b, c, d, e, f, g, i], r, ?_, ?_⟩
      · simp [binaryReadUint64]
      · simp only [Uint64, List.foldl, OpRRQ]
        omega
    | [], hl | [_], hl | [_, _], hl | [_, _, _], hl | [_, _, _, _], hl
    | [_, _, _, _, _], hl => exact absurd (by simp) hl

/-- A buffer whose first two bytes are not both 0 is refused before any field of the
request is assigned. -/
theorem UnmarshalBinary_prefix (U : List Nat → List Nat) (q : ReadReq) (a b : Nat)
    (rest : List Nat) (h : a ≠ 0 ∨ b ≠ 0) :
    (rest.length < 6 ∧
      ReadReq.UnmarshalBinary U q (a :: b :: rest) = (q, some Error.ErrUnexpectedEOF)) ∨
    (6 ≤ rest.length ∧
      ReadReq.UnmarshalBinary U q (a :: b :: rest) = (q, some (Error.New "invalid RRQ"))) := by
  rcases binaryReadUint64_prefix a b rest h with ⟨hl, hr⟩ | ⟨code, r, hr, hc⟩
  · left
    exact ⟨hl, by simp [ReadReq.UnmarshalBinary, hr]⟩
  · right
    refine ⟨?_, by simp [ReadReq.UnmarshalBinary, hr, hc]⟩
    by_contra hl
    have : rest.length + 1 + 1 < 8 := by omega
    simp [binaryReadUint64, this] at hr

/-! ## The copy loop of `Data.MarshalBinary` in closed form -/

theorem LimitedReader.Read_zero (R : Reader) (len : Nat) :
    LimitedReader.Read ⟨R, 0⟩ len = ([], some Error.EOF, ⟨R, 0⟩) := by
  simp [LimitedReader.Read]

theorem LimitedReader.Read_nil (R : Reader) (N len : Nat) (hN : 0 < N)
    (hd : R.data = []) :
    LimitedReader.Read ⟨R, N⟩ len = ([], some R.atEnd, ⟨R, N⟩) := by
  have : ¬ N ≤ 0 := by omega
  simp [LimitedReader.Read, Reader.Read, hd, this]

theorem LimitedReader.Read_cons (R : Reader) (N : Nat) (hN : 0 < N)
    (hd : R.data ≠ []) :
    ∃ m, 0 < m ∧ m ≤ N ∧
      LimitedReader.Read ⟨R, N⟩ MinRead =
        (R.data.take m,
          if R.eager = true ∧ R.data.drop m = [] then some R.atEnd else none,
          ⟨{ R with data := R.data.drop m }, N - (R.data.take m).length⟩) := by
  obtain ⟨data, chunk, fail, eager⟩ := R
  cases data with
  | nil => exact absurd rfl hd
  | cons x xs =>
    have hN0 : ¬ N ≤ 0 := by omega
    refine ⟨min (if MinRead > N then N else MinRead) (chunk + 1), ?_, ?_, ?_⟩
    · simp only [MinRead]; split <;> omega
    · simp only [MinRead]; split <;> omega
    · simp only [LimitedReader.Read, Reader.Read, hN0, if_false, Reader.atEnd]

theorem take_append_take_drop (l : List Nat) (m N : Nat) (hm : m ≤ N) :
    l.take m ++ (l.drop m).take (N - (l.take m).length) = l.take N := by
  by_cases h : m ≤ l.length
  · have h1 : (l.take m).length = m := by simp [h]
    rw [h1]
    have := List.take_add l m (N - m)
    rw [Nat.add_sub_cancel' hm] at this
    exact this.symm
  · have h1 : l.length ≤ m := by omega
    rw [List.take_of_length_le h1, List.drop_eq_nil_of_le h1,
      List.take_of_length_le (by omega : l.length ≤ N)]
    simp

/-- One turn of the loop of `ReadFrom`, without the proof term of its definition. -/
theorem ReadFrom_unfold (b : List Nat) (l : LimitedReader) (n : Nat) :
    ReadFrom b l n =
      match l.Read MinRead with
      | (p, some Error.EOF, l') => (b ++ p, l', n + p.length, none)
      | (p, some e, l') => (b ++ p, l', n + p.length, some e)
      | (p, none, l') => ReadFrom (b ++ p) l' (n + p.length) := by
  conv_lhs => unfold ReadFrom
  split <;> rename_i heq <;> simp only [heq]

/-- The loop of `ReadFrom` on a reader limited to `N` bytes appends the next
`min N len` bytes of the source, whatever the size of the single reads. It ends
without error when the limit is reached before the source reports anything, and
otherwise with what the source reports at its end (`io.EOF` counting as no error). -/
theorem ReadFrom_eq (N : Nat) : ∀ (b : List Nat) (R : Reader) (n : Nat),
    ReadFrom b ⟨R, N⟩ n =
      (b ++ R.data.take N, ⟨{ R with data := R.data.drop N }, N - min N R.data.length⟩,
        n + min N R.data.length,
        if N < R.data.length ∨ N = 0 ∨ (N = R.data.length ∧ R.eager = false) then none
        else if R.atEnd = Error.EOF then none else some R.atEnd) := by
  induction N using Nat.strong_induction_on with
  | _ N ih =>
    intro b R n
    rw [ReadFrom_unfold]
    rcases Nat.eq_zero_or_pos N with hN | hN
    · subst hN
      rw [LimitedReader.Read_zero]
      simp
    · have hN0 : N ≠ 0 := by omega
      by_cases hd : R.data = []
      · rw [LimitedReader.Read_nil R N MinRead hN hd]
        obtain ⟨data, chunk, fail, eager⟩ := R
        simp only at hd
        subst hd
        have hc : ¬ (N < ([] : List Nat).length ∨ N = 0 ∨
            (N = ([] : List Nat).length ∧ eager = false)) := by
          simp only [List.length_nil]; omega
        simp only [hc, if_false]
        cases hE : Reader.atEnd ⟨[], chunk, fail, eager⟩ <;> simp
      · obtain ⟨m, hm0, hmN, hread⟩ := LimitedReader.Read_cons R N hN hd
        rw [hread]
        have hlen : 0 < R.data.length := List.length_pos.mpr hd
        by_cases hlast : R.eager = true ∧ R.data.drop m = []
        · -- the read that hands out the last bytes also reports the end
          obtain ⟨he, hdrop⟩ := hlast
          have hml : R.data.length ≤ m := List.drop_eq_nil_iff.mp hdrop
          have htake : R.data.take m = R.data := List.take_of_length_le hml
          have htakeN : R.data.take N = R.data := List.take_of_length_le (by omega)
          have hdropN : R.data.drop N = [] := List.drop_eq_nil_of_le (by omega)
          have hc : ¬ (N < R.data.length ∨ N = 0 ∨
              (N = R.data.length ∧ R.eager = false)) := by
            rw [he]; simp only [Bool.true_eq_false, and_false, or_false]; omega
          have hmin : min N R.data.length = R.data.length := by omega
          simp only [he, hdrop, and_self, if_true, htake, htakeN, hdropN, hc, if_false,
            hmin]
          have hc2 : R.data.length ≤ N ∧ ¬ N = 0 := ⟨by omega, hN0⟩
          cases hE : R.atEnd <;> simp [hc2]
        · have hpl : 0 < (R.data.take m).length := by
            rw [List.length_take]; omega
          have hple : (R.data.take m).length ≤ m := by
            rw [List.length_take]; omega
          simp only [hlast, if_false]
          rw [ih (N - (R.data.take m).length) (by omega)]
          simp only [Reader.atEnd, List.append_assoc, take_append_take_drop _ _ _ hmN,
            List.drop_drop, List.length_drop]
          by_cases hml : m ≤ R.data.length
          · have h1 : (R.data.take m).length = m := by
              rw [List.length_take]; omega
            rw [h1, Nat.add_sub_cancel' hmN]
            have h2 : N - m - min (N - m) (R.data.length - m) = N - min N R.data.length := by
              omega
            have h3 : n + m + min (N - m) (R.data.length - m) = n + min N R.data.length := by
              omega
            have hne : R.eager = true → m ≠ R.data.length := by
              intro he hmeq
              exact hlast ⟨he, List.drop_eq_nil_of_le (by omega)⟩
            have h4 : (N - m < R.data.length - m ∨ N - m = 0 ∨
                (N - m = R.data.length - m ∧ R.eager = false)) ↔
                (N < R.data.length ∨ N = 0 ∨ (N = R.data.length ∧ R.eager = false)) := by
              cases he : R.eager
              · simp only [and_true]; omega
              · have := hne he
                simp only [Bool.true_eq_false, and_false, or_false]; omega
            rw [h2, h3]
            simp only [h4]
          · have h1 : (R.data.take m).length = R.data.length := by
              rw [List.length_take]; omega
            have h5 : List.drop (m + (N - R.data.length)) R.data = List.drop N R.data := by
              rw [List.drop_eq_nil_of_le (by omega), List.drop_eq_nil_of_le (by omega)]
            have hne : R.eager = false := by
              cases he : R.eager
              · rfl
              · exact absurd ⟨he, List.drop_eq_nil_of_le (by omega)⟩ hlast
            rw [h1, h5]
            have h2 : N - R.data.length - min (N - R.data.length) (R.data.length - m)
                = N - min N R.data.length := by
              omega
            have h3 : n + R.data.length + min (N - R.data.length) (R.data.length - m)
                = n + min N R.data.length := by
              omega
            have h4 : (N - R.data.length < R.data.length - m ∨ N - R.data.length = 0 ∨
                (N - R.data.length = R.data.length - m ∧ R.eager = false)) ↔
                (N < R.data.length ∨ N = 0 ∨ (N = R.data.length ∧ R.eager = false)) := by
              rw [hne]; simp only [and_true]; omega
            rw [h2, h3]
            simp only [h4]

/-- Closed form of `io.CopyN` into a buffer: the next `min n len` bytes of the source
are appended, the source is advanced past them, and the call reports no error when
`n` bytes were there and otherwise what the exhausted source reports. -/
theorem ioCopyN_eq (dst : List Nat) (src : Reader) (n : Nat) :
    ioCopyN dst src n =
      (dst ++ src.data.take n, { src with data := src.data.drop n },
        min n src.data.length,
        if n ≤ src.data.length then none else some src.atEnd) := by
  simp only [ioCopyN, ReadFrom_eq, Nat.zero_add]
  by_cases h : n ≤ src.data.length
  · simp [h, Nat.min_eq_left h]
  · have h1 : min n src.data.length = src.data.length := by omega
    have h2 : src.data.length ≠ n := by omega
    have h3 : src.data.length < n := by omega
    have hc : ¬ (n < src.data.length ∨ n = 0 ∨
        (n = src.data.length ∧ src.eager = false)) := by omega
    simp only [h, h1, h2, h3, hc, if_false, true_and]
    cases hE : src.atEnd <;> simp

/-- The receiver after `Data.MarshalBinary`: the block counter is incremented as a
`uint16` and the payload source has lost its next `BlockSize` bytes (all of them if
it held fewer), whether the call succeeds or not. -/
theorem Data.MarshalBinary_fst (d : Data) :
    d.MarshalBinary.1 =
      { Block := (d.Block + 1) % 65536,
        Payload := { d.Payload with data := d.Payload.data.drop BlockSize } } := by
  simp only [Data.MarshalBinary, ioCopyN_eq]
  split <;> rfl

/-- The result of `Data.MarshalBinary`: a packet made of the operation code, the new
block number and the next `BlockSize` bytes of the source, unless the source runs
out before `BlockSize` bytes and reports an error other than `io.EOF`, which is then
returned. -/
theorem Data.MarshalBinary_snd (d : Data) :
    d.MarshalBinary.2 =
      if BlockSize ≤ d.Payload.data.length ∨ d.Payload.atEnd = Error.EOF then
        .ok (PutUint64 OpData ++ PutUint16 ((d.Block + 1) % 65536)
          ++ d.Payload.data.take BlockSize)
      else .error d.Payload.atEnd := by
  simp only [Data.MarshalBinary, ioCopyN_eq, binaryWriteOpCode, binaryWriteUint16,
    List.nil_append]
  by_cases h : BlockSize ≤ d.Payload.data.length
  · simp [h]
  · simp only [h, if_false, false_or]
    cases hE : d.Payload.atEnd <;> simp

/-- `Data.MarshalBinary` succeeds when the source holds a full block or reports
`io.EOF` at its end. -/
theorem Data.MarshalBinary_ok (d : Data)
    (h : BlockSize ≤ d.Payload.data.length ∨ d.Payload.atEnd = Error.EOF) :
    d.MarshalBinary.2 =
      .ok (PutUint64 OpData ++ PutUint16 ((d.Block + 1) % 65536)
        ++ d.Payload.data.take BlockSize) := by
  rw [Data.MarshalBinary_snd, if_pos h]

/-- `Data.MarshalBinary` returns the error of the source when the source runs out
before a full block and reports an error other than `io.EOF`. -/
theorem Data.MarshalBinary_error (d : Data)
    (hlen : d.Payload.data.length < BlockSize) (herr : d.Payload.atEnd ≠ Error.EOF) :
    d.MarshalBinary.2 = .error d.Payload.atEnd := by
  rw [Data.MarshalBinary_snd, if_neg]
  intro h
  rcases h with h | h
  · omega
  · exact herr h

/-! ## Read requests: encoding and decoding -/

/-- A mode that equals `"octet"` up to the case of its letters holds no 0 byte. -/
theorem not_mem_of_lowerASCII_eq_octet (m : List Nat) (h : lowerASCII m = octet) :
    0 ∉ m := by
  intro hm
  have : (0 : Nat) ∈ lowerASCII m := by
    unfold lowerASCII
    exact List.mem_map.mpr ⟨0, hm, by simp⟩
  rw [h] at this
  revert this
  decide

/-- The bytes `ReadReq.MarshalBinary` returns: the eight bytes of the operation code,
the file name, one 0 byte and the mode, with nothing after the mode. -/
theorem ReadReq.MarshalBinary_eq (r : ReadReq) :
    r.MarshalBinary =
      .ok (PutUint64 OpRRQ ++ r.Filename ++ [0] ++ (if r.Mode = [] then octet else r.Mode)) := by
  by_cases h : r.Mode = [] <;> simp [ReadReq.MarshalBinary, binaryWriteOpCode, h]

/-- Decoding a buffer made of the eight-byte operation code, a file name without 0
byte, one 0 byte and a mode without 0 byte: both fields are assigned, and the call
ends with "invalid RRQ" because the mode has no terminator. -/
theorem UnmarshalBinary_unterminated (U : List Nat → List Nat) (q : ReadReq)
    (f m : List Nat) (hf : 0 ∉ f) (hm : 0 ∉ m) :
    ReadReq.UnmarshalBinary U q (PutUint64 OpRRQ ++ f ++ [0] ++ m) =
      (if f = [] then ⟨[], q.Mode⟩ else ⟨f, m⟩, some (Error.New "invalid RRQ")) := by
  have hread : binaryReadUint64 (PutUint64 OpRRQ ++ f ++ [0] ++ m)
      = .ok (OpRRQ, f ++ 0 :: m) := by
    have := binaryReadUint64_PutUint64 (f ++ 0 :: m)
    simpa using this
  simp only [ReadReq.UnmarshalBinary, hread, ReadString_append f m 0 hf,
    TrimRight_concat f 0 hf, ReadString_of_not_mem m 0 hm]
  by_cases hfe : f = []
  · simp [hfe]
  · simp [hfe]

/-- Claim C1. Round trip of a read request: for every request with a non-empty file
name without 0 byte and a mode that is empty or equals "octet" up to letter case,
`MarshalBinary` succeeds, and `UnmarshalBinary` applied to its output assigns the
file name and the mode but returns the error "invalid RRQ", since the encoder writes
no 0 byte after the mode: the round trip never succeeds. -/
theorem C1_roundtrip_rejected (U : List Nat → List Nat) (q r : ReadReq)
    (hne : r.Filename ≠ []) (h0 : 0 ∉ r.Filename)
    (hmode : r.Mode = [] ∨ lowerASCII r.Mode = octet) :
    ∃ out, r.MarshalBinary = .ok out ∧
      ReadReq.UnmarshalBinary U q out =
        (⟨r.Filename, if r.Mode = [] then octet else r.Mode⟩,
          some (Error.New "invalid RRQ")) := by
  refine ⟨_, ReadReq.MarshalBinary_eq r, ?_⟩
  have hm : 0 ∉ (if r.Mode = [] then octet else r.Mode) := by
    rcases hmode with h | h
    · rw [if_pos h]; decide
    · by_cases he : r.Mode = []
      · rw [if_pos he]; decide
      · rw [if_neg he]; exact not_mem_of_lowerASCII_eq_octet _ h
  rw [UnmarshalBinary_unterminated U q _ _ h0 hm, if_neg hne]

/-- Claim C1 at the request for file "a" in the default mode: the bytes produced by
`MarshalBinary` are refused by `UnmarshalBinary` with "invalid RRQ". -/
theorem C1_roundtrip_rejected_witness :
    ∃ out, ReadReq.MarshalBinary ⟨[97], []⟩ = .ok out ∧
      ReadReq.UnmarshalBinary id ⟨[], []⟩ out =
        (⟨[97], octet⟩, some (Error.New "invalid RRQ")) :=
  C1_roundtrip_rejected id ⟨[], []⟩ ⟨[97], []⟩ (by decide) (by decide) (Or.inl rfl)

/-- Claim C2. A read request in the wire format of the protocol (the two bytes 0x00
0x01, file name, 0 byte, mode, 0 byte) is never decoded: whatever follows the bytes
0x00 0x01, `UnmarshalBinary` returns an error and leaves the request untouched. For
file "a" and mode "octet" the error is "invalid RRQ". -/
theorem C2_wire_request_rejected (U : List Nat → List Nat) (q : ReadReq) :
    (∀ rest : List Nat,
      (ReadReq.UnmarshalBinary U q (0 :: 1 :: rest)).2 ≠ none ∧
      (ReadReq.UnmarshalBinary U q (0 :: 1 :: rest)).1 = q) ∧
    ReadReq.UnmarshalBinary U q ([0, 1] ++ [97] ++ [0] ++ octet ++ [0]) =
      (q, some (Error.New "invalid RRQ")) := by
  constructor
  · intro rest
    rcases UnmarshalBinary_prefix U q 0 1 rest (Or.inr (by decide)) with ⟨_, h⟩ | ⟨_, h⟩ <;>
      simp [h]
  · rcases UnmarshalBinary_prefix U q 0 1 ([97] ++ [0] ++ octet ++ [0])
      (Or.inr (by decide)) with ⟨hl, _⟩ | ⟨_, h⟩
    · exact absurd hl (by decide)
    · exact h

/-- Claim C7. For the request for file "a" in the default mode, `MarshalBinary`
returns fifteen bytes that start with the eight-byte operation code
0,0,0,0,0,0,0,1, not the ten bytes 0x00 0x01 "a" 0x00 "octet". -/
theorem C7_opcode_is_eight_bytes :
    ReadReq.MarshalBinary ⟨[97], []⟩ =
      .ok [0, 0, 0, 0, 0, 0, 0, 1, 97, 0, 111, 99, 116, 101, 116] ∧
    ReadReq.MarshalBinary ⟨[97], []⟩ ≠ .ok ([0, 1] ++ [97] ++ [0] ++ octet) := by
  decide

/-- Claim C8. `MarshalBinary` writes nothing after the mode. For the request for file
"a" in the default mode the last byte of the output is `'t'` (116), not 0, and no 0
byte follows the one that ends the file name. -/
theorem C8_no_mode_terminator :
    (∀ r : ReadReq, r.MarshalBinary =
      .ok (PutUint64 OpRRQ ++ r.Filename ++ [0] ++ (if r.Mode = [] then octet else r.Mode))) ∧
    ∃ out, ReadReq.MarshalBinary ⟨[97], []⟩ = .ok out ∧
      out.getLast? = some 116 ∧ out.take 10 = PutUint64 OpRRQ ++ [97] ++ [0] ∧
      0 ∉ out.drop 10 := by
  refine ⟨ReadReq.MarshalBinary_eq, _, rfl, ?_⟩
  decide

/-- Claim C9. Two buffers whose first two bytes are not the 16-bit operation code 1:
the four bytes 0,5,0,0 are refused with `io.ErrUnexpectedEOF`, not with
"invalid RRQ"; and the buffer 0,0,0,0,0,0,0,1,"a",0,"octet",0, whose first two bytes
hold the code 0, is accepted. -/
theorem C9_opcode_read_as_eight_bytes (U : List Nat → List Nat) (q : ReadReq) :
    ReadReq.UnmarshalBinary U q [0, 5, 0, 0] = (q, some Error.ErrUnexpectedEOF) ∧
    Error.ErrUnexpectedEOF ≠ Error.New "invalid RRQ" ∧
    ReadReq.UnmarshalBinary U q
        [0, 0, 0, 0, 0, 0, 0, 1, 97, 0, 111, 99, 116, 101, 116, 0] =
      (⟨[97], octet⟩, none) := by
  refine ⟨rfl, by decide, ?_⟩
  rfl

/-- Claim C10. When the operation code read from the buffer is the read-request code,
`UnmarshalBinary` returns "invalid RRQ" in each of these cases: the bytes after the
code hold no 0 byte; they start with a 0 byte; the file name is terminated but no
further 0 byte follows; the mode between the two terminators is empty. -/
theorem C10_invalid_request (U : List Nat → List Nat) (q : ReadReq) (p rest : List Nat)
    (hop : binaryReadUint64 p = .ok (OpRRQ, rest))
    (hcase : 0 ∉ rest ∨ (∃ t, rest = 0 :: t) ∨
      (∃ f t, rest = f ++ 0 :: t ∧ 0 ∉ f ∧ 0 ∉ t) ∨
      (∃ f t, rest = f ++ 0 :: 0 :: t ∧ 0 ∉ f)) :
    (ReadReq.UnmarshalBinary U q p).2 = some (Error.New "invalid RRQ") := by
  rcases hcase with h | ⟨t, h⟩ | ⟨f, t, h, hf, ht⟩ | ⟨f, t, h, hf⟩
  · simp [ReadReq.UnmarshalBinary, hop, ReadString_of_not_mem rest 0 h]
  · subst h
    simp [ReadReq.UnmarshalBinary, hop, ReadString, TrimRight]
  · subst h
    simp only [ReadReq.UnmarshalBinary, hop, ReadString_append f t 0 hf,
      TrimRight_concat f 0 hf, ReadString_of_not_mem t 0 ht]
    by_cases hfe : f = [] <;> simp [hfe]
  · subst h
    simp only [ReadReq.UnmarshalBinary, hop, ReadString_append f (0 :: t) 0 hf,
      TrimRight_concat f 0 hf]
    by_cases hfe : f = [] <;> simp [hfe, ReadString, TrimRight]

/-- Claim C10 at four buffers that start with the eight-byte read-request code: one
followed by "a"; by 0,"a"; by "a",0,"octet"; and by "a",0,0. -/
theorem C10_invalid_request_witness :
    (ReadReq.UnmarshalBinary id ⟨[], []⟩ [0, 0, 0, 0, 0, 0, 0, 1, 97]).2
      = some (Error.New "invalid RRQ") ∧
    (ReadReq.UnmarshalBinary id ⟨[], []⟩ [0, 0, 0, 0, 0, 0, 0, 1, 0, 97]).2
      = some (Error.New "invalid RRQ") ∧
    (ReadReq.UnmarshalBinary id ⟨[], []⟩
      [0, 0, 0, 0, 0, 0, 0, 1, 97, 0, 111, 99, 116, 101, 116]).2
      = some (Error.New "invalid RRQ") ∧
    (ReadReq.UnmarshalBinary id ⟨[], []⟩ [0, 0, 0, 0, 0, 0, 0, 1, 97, 0, 0]).2
      = some (Error.New "invalid RRQ") :=
  ⟨C10_invalid_request id ⟨[], []⟩ _ [97] (by decide) (Or.inl (by decide)),
   C10_invalid_request id ⟨[], []⟩ _ [0, 97] (by decide) (Or.inr (Or.inl ⟨[97], rfl⟩)),
   C10_invalid_request id ⟨[], []⟩ _ [97, 0, 111, 99, 116, 101, 116] (by decide)
     (Or.inr (Or.inr (Or.inl ⟨[97], octet, rfl, by decide, by decide⟩))),
   C10_invalid_request id ⟨[], []⟩ _ [97, 0, 0] (by decide)
     (Or.inr (Or.inr (Or.inr ⟨[97], [], rfl, by decide⟩)))⟩

/-! ## Data packets: size, layout, payload and block counter -/

/-- Claim C3. A data packet can be longer than `DatagramSize`: every packet is ten
header bytes plus up to 512 payload bytes long, and for a source holding 512 bytes
`MarshalBinary` returns 522 bytes. -/
theorem C3_datagram_exceeds_limit :
    (∀ (d : Data) (out : List Nat), d.MarshalBinary.2 = .ok out →
      out.length = 10 + min d.Payload.data.length 512) ∧
    ∃ out, (Data.MarshalBinary ⟨0, ⟨List.replicate 512 0, 511, none, false⟩⟩).2 = .ok out ∧
      out.length = 522 ∧ DatagramSize < out.length := by
  have hgen : ∀ (d : Data) (out : List Nat), d.MarshalBinary.2 = .ok out →
      out.length = 10 + min d.Payload.data.length 512 := by
    intro d out h
    rw [Data.MarshalBinary_snd] at h
    split at h
    · cases h
      simp only [List.length_append, List.length_take, PutUint64, PutUint16, BlockSize,
        DatagramSize, List.length_cons, List.length_nil]
      omega
    · cases h
  have hok : (Data.MarshalBinary ⟨0, ⟨List.replicate 512 0, 511, none, false⟩⟩).2 =
      .ok (PutUint64 OpData ++ PutUint16 1 ++ List.replicate 512 0) := by
    rw [Data.MarshalBinary_ok ⟨0, ⟨List.replicate 512 0, 511, none, false⟩⟩ (Or.inr rfl)]
    simp only [List.take_replicate, BlockSize, DatagramSize]
    rfl
  have hlen : (PutUint64 OpData ++ PutUint16 1 ++ List.replicate 512 0).length = 522 := by
    simp only [List.length_append, List.length_replicate, PutUint64, PutUint16,
      List.length_cons, List.length_nil]
  refine ⟨hgen, _, hok, hlen, ?_⟩
  rw [hlen]
  decide

/-- Claim C4. For a fresh `Data` over the two-byte source "Hi", `MarshalBinary` returns
twelve bytes: the eight-byte operation code 0,0,0,0,0,0,0,3, the block number 0,1 at
offset 8 and the payload at offset 10. The packet does not start with 0x00 0x03 and
is not 4 + 2 bytes long. -/
theorem C4_header_is_ten_bytes :
    Data.MarshalBinary ⟨0, ⟨[72, 105], 1, none, false⟩⟩ =
      (⟨1, ⟨[], 1, none, false⟩⟩, .ok [0, 0, 0, 0, 0, 0, 0, 3, 0, 1, 72, 105]) := by
  apply Prod.ext
  · rw [Data.MarshalBinary_fst]
    simp [BlockSize, DatagramSize]
  · rw [Data.MarshalBinary_snd]
    simp [BlockSize, DatagramSize, Reader.atEnd, PutUint64, PutUint16, OpData]

/-- Claim C5, as stated, fails for a source holding 509 bytes: the packet carries all
509 of them after its header and the source is left empty, where `min 509 508` is
508. -/
theorem C5_payload_of_509_bytes :
    Data.MarshalBinary ⟨0, ⟨List.replicate 509 7, 508, none, false⟩⟩ =
      (⟨1, ⟨[], 508, none, false⟩⟩,
        .ok (PutUint64 OpData ++ PutUint16 1 ++ List.replicate 509 7)) ∧
    min 509 508 < (List.replicate 509 7).length := by
  refine ⟨?_, by rw [List.length_replicate]; decide⟩
  apply Prod.ext
  · rw [Data.MarshalBinary_fst]
    simp only [List.drop_replicate, BlockSize, DatagramSize]
    rfl
  · rw [Data.MarshalBinary_ok ⟨0, ⟨List.replicate 509 7, 508, none, false⟩⟩ (Or.inr rfl)]
    simp only [List.take_replicate, BlockSize, DatagramSize]
    rfl

/-- Claim C5, amended. For every payload source with `n` bytes remaining that meets no
read failure during the call (it reports `io.EOF` at its end, or holds a full block),
`MarshalBinary` succeeds, the bytes it writes after the operation code and the block
number are exactly the next `min n BlockSize` bytes of the source, in order, and the
source is advanced by exactly that many bytes; `BlockSize` is 512, so the payload
never exceeds 512 bytes. -/
theorem C5_payload_is_next_block (d : Data)
    (hread : d.Payload.atEnd = Error.EOF ∨ BlockSize ≤ d.Payload.data.length) :
    d.MarshalBinary.2 =
      .ok (binaryWriteUint16 (binaryWriteOpCode [] OpData) ((d.Block + 1) % 65536)
        ++ d.Payload.data.take (min d.Payload.data.length BlockSize)) ∧
    d.MarshalBinary.1.Payload =
      { d.Payload with data := d.Payload.data.drop (min d.Payload.data.length BlockSize) } ∧
    (d.Payload.data.take (min d.Payload.data.length BlockSize)).length =
      min d.Payload.data.length BlockSize ∧
    BlockSize = 512 ∧ min d.Payload.data.length BlockSize ≤ 512 := by
  have htake : d.Payload.data.take (min d.Payload.data.length BlockSize)
      = d.Payload.data.take BlockSize := by
    by_cases h : BlockSize ≤ d.Payload.data.length
    · rw [Nat.min_eq_right h]
    · rw [Nat.min_eq_left (by omega), List.take_of_length_le (le_refl _),
        List.take_of_length_le (by omega)]
  have hdrop : d.Payload.data.drop (min d.Payload.data.length BlockSize)
      = d.Payload.data.drop BlockSize := by
    by_cases h : BlockSize ≤ d.Payload.data.length
    · rw [Nat.min_eq_right h]
    · rw [Nat.min_eq_left (by omega), List.drop_eq_nil_of_le (le_refl _),
        List.drop_eq_nil_of_le (by omega)]
  refine ⟨?_, ?_, ?_, rfl, ?_⟩
  · rw [Data.MarshalBinary_snd, htake, if_pos (by tauto)]
    simp [binaryWriteOpCode, binaryWriteUint16]
  · rw [Data.MarshalBinary_fst, hdrop]
  · rw [List.length_take]
    omega
  · have : BlockSize = 512 := rfl
    omega

/-- Claim C5, amended, at a source holding the two bytes "Hi". -/
theorem C5_payload_is_next_block_witness :
    (Data.MarshalBinary ⟨0, ⟨[72, 105], 0, none, false⟩⟩).2 =
      .ok (binaryWriteUint16 (binaryWriteOpCode [] OpData) ((0 + 1) % 65536)
        ++ [72, 105].take (min [72, 105].length BlockSize)) :=
  (C5_payload_is_next_block ⟨0, ⟨[72, 105], 0, none, false⟩⟩ (Or.inl rfl)).1

/-- Claim C6. `MarshalBinary` leaves `Block` equal to `(b + 1) mod 65536`, where `b`
is its value before the call, and a successful call returns the operation code
followed by the two big-endian bytes of that new value and the payload. From
`Block = 0` the number is 1 (bytes 0,1), from `Block = 65535` it is 0 (bytes 0,0),
and a second call moves on by one again. -/
theorem C6_block_counter (d : Data) :
    d.MarshalBinary.1.Block = (d.Block + 1) % 65536 ∧
    (∀ out, d.MarshalBinary.2 = .ok out →
      out = binaryWriteUint16 (binaryWriteOpCode [] OpData) d.MarshalBinary.1.Block
        ++ d.Payload.data.take BlockSize) ∧
    (d.Block = 0 →
      d.MarshalBinary.1.Block = 1 ∧ PutUint16 d.MarshalBinary.1.Block = [0, 1]) ∧
    (d.Block = 65535 →
      d.MarshalBinary.1.Block = 0 ∧ PutUint16 d.MarshalBinary.1.Block = [0, 0]) ∧
    d.MarshalBinary.1.MarshalBinary.1.Block = (d.MarshalBinary.1.Block + 1) % 65536 := by
  have hb : d.MarshalBinary.1.Block = (d.Block + 1) % 65536 := by
    rw [Data.MarshalBinary_fst]
  refine ⟨hb, ?_, ?_, ?_, ?_⟩
  · intro out h
    rw [Data.MarshalBinary_snd] at h
    split at h
    · cases h
      rw [hb]
      simp [binaryWriteOpCode, binaryWriteUint16]
    · cases h
  · intro h0
    rw [hb, h0]
    exact ⟨by decide, by decide⟩
  · intro h0
    rw [hb, h0]
    exact ⟨by decide, by decide⟩
  · rw [Data.MarshalBinary_fst d.MarshalBinary.1]

/-- Claim C6 at the counter value 65535 over the source "Hi": the call succeeds, the
counter wraps to 0 and the packet carries the block number 0,0. -/
theorem C6_block_counter_witness :
    (Data.MarshalBinary ⟨65535, ⟨[72, 105], 0, none, false⟩⟩).1.Block = 0 ∧
    (Data.MarshalBinary ⟨65535, ⟨[72, 105], 0, none, false⟩⟩).2 =
      .ok [0, 0, 0, 0, 0, 0, 0, 3, 0, 0, 72, 105] := by
  refine ⟨((C6_block_counter ⟨65535, ⟨[72, 105], 0, none, false⟩⟩).2.2.2.1 rfl).1, ?_⟩
  rw [Data.MarshalBinary_snd]
  simp [BlockSize, DatagramSize, Reader.atEnd, PutUint64, PutUint16, OpData]

/-! ## Read requests: accepted and refused buffers -/

/-- A string that equals `"octet"` up to the case of its letters is pure ASCII. -/
theorem all_lt_of_lowerASCII_eq_octet (m : List Nat) (h : lowerASCII m = octet) :
    m.all (fun c => c < 128) = true := by
  rw [List.all_eq_true]
  intro c hc
  have hmem : (if 65 ≤ c ∧ c ≤ 90 then c + 32 else c) ∈ lowerASCII m :=
    List.mem_map.mpr ⟨c, hc, rfl⟩
  rw [h] at hmem
  simp only [decide_eq_true_eq]
  split at hmem
  · omega
  · simp only [octet, List.mem_cons, List.mem_singleton, List.not_mem_nil, or_false] at hmem
    omega

/-- `strings.ToLower` of a string that equals `"octet"` up to letter case is
`"octet"`, whatever the Unicode tables say. -/
theorem ToLower_of_lowerASCII_eq_octet (U : List Nat → List Nat) (m : List Nat)
    (h : lowerASCII m = octet) : ToLower U m = octet := by
  unfold ToLower
  rw [if_pos (all_lt_of_lowerASCII_eq_octet m h), h]

/-- Decoding a buffer in which the operation code read is `OpRRQ` and is followed by
a non-empty 0-terminated file name and a non-empty 0-terminated mode: both fields are
assigned without their terminators, and the call succeeds exactly when the lowered
mode is `"octet"`. Bytes after the second terminator are not looked at. -/
theorem UnmarshalBinary_terminated (U : List Nat → List Nat) (q : ReadReq)
    (p f m t : List Nat) (hop : binaryReadUint64 p = .ok (OpRRQ, f ++ 0 :: (m ++ 0 :: t)))
    (hf : f ≠ []) (hf0 : 0 ∉ f) (hm : m ≠ []) (hm0 : 0 ∉ m) :
    ReadReq.UnmarshalBinary U q p =
      (⟨f, m⟩, if ToLower U m = octet then none
        else some (Error.New "only binary transfers supported")) := by
  simp only [ReadReq.UnmarshalBinary, hop, ReadString_append f (m ++ 0 :: t) 0 hf0,
    TrimRight_concat f 0 hf0, ReadString_append m t 0 hm0, TrimRight_concat m 0 hm0]
  by_cases h : ToLower U m = octet <;> simp [hf, hm, h]

/-- Claim C11. For every buffer in which the operation code read is the read-request
code and is followed by a non-empty 0-terminated file name and a non-empty
0-terminated mode, `UnmarshalBinary` assigns both fields and succeeds if and only if
the mode equals "octet" up to the case of its letters; for every other mode it
returns "only binary transfers supported", which is not the error "invalid RRQ".
The Unicode lowering of the Go library enters through `U`; of it only the fact is
used that a string with a non-ASCII byte is never lowered to "octet". -/
theorem C11_mode_check (U : List Nat → List Nat)
    (hU : ∀ s : List Nat, (s.all fun c => c < 128) = false → U s ≠ octet)
    (q : ReadReq) (p f m t : List Nat)
    (hop : binaryReadUint64 p = .ok (OpRRQ, f ++ 0 :: (m ++ 0 :: t)))
    (hf : f ≠ []) (hf0 : 0 ∉ f) (hm : m ≠ []) (hm0 : 0 ∉ m) :
    ((ReadReq.UnmarshalBinary U q p).2 = none ↔ lowerASCII m = octet) ∧
    (lowerASCII m = octet → ReadReq.UnmarshalBinary U q p = (⟨f, m⟩, none)) ∧
    (lowerASCII m ≠ octet → ReadReq.UnmarshalBinary U q p =
      (⟨f, m⟩, some (Error.New "only binary transfers supported"))) ∧
    Error.New "only binary transfers supported" ≠ Error.New "invalid RRQ" := by
  have hlow : ToLower U m = octet ↔ lowerASCII m = octet := by
    constructor
    · intro h
      unfold ToLower at h
      split at h
      · exact h
      · rename_i hall
        exact absurd h (hU m (by simpa using hall))
    · exact ToLower_of_lowerASCII_eq_octet U m
  have hres := UnmarshalBinary_terminated U q p f m t hop hf hf0 hm hm0
  refine ⟨?_, ?_, ?_, by decide⟩
  · rw [hres, ← hlow]
    by_cases h : ToLower U m = octet <;> simp [h]
  · intro h
    rw [hres, if_pos (hlow.mpr h)]
  · intro h
    rw [hres, if_neg (fun h' => h (hlow.mp h'))]

/-- Claim C11 at the eight-byte read-request code followed by "a", 0, "OCTET", 0 and
by "a", 0, "mail", 0: the first request is accepted, the second is refused with
"only binary transfers supported". -/
theorem C11_mode_check_witness :
    ReadReq.UnmarshalBinary id ⟨[], []⟩
        [0, 0, 0, 0, 0, 0, 0, 1, 97, 0, 79, 67, 84, 69, 84, 0] =
      (⟨[97], [79, 67, 84, 69, 84]⟩, none) ∧
    ReadReq.UnmarshalBinary id ⟨[], []⟩
        [0, 0, 0, 0, 0, 0, 0, 1, 97, 0, 109, 97, 105, 108, 0] =
      (⟨[97], [109, 97, 105, 108]⟩, some (Error.New "only binary transfers supported")) :=
  have hid : ∀ s : List Nat, (s.all fun c => c < 128) = false → id s ≠ octet := by
    intro s hs h
    have h' : s = octet := h
    rw [h'] at hs
    revert hs
    decide
  ⟨(C11_mode_check id hid ⟨[], []⟩ _ [97] [79, 67, 84, 69, 84] [] (by decide)
      (by decide) (by decide) (by decide) (by decide)).2.1 (by decide),
   (C11_mode_check id hid ⟨[], []⟩ _ [97] [109, 97, 105, 108] [] (by decide)
      (by decide) (by decide) (by decide) (by decide)).2.2.1 (by decide)⟩

/-- Claim C12, as stated, fails for the empty buffer and for the one-byte buffer 0:
`UnmarshalBinary` returns `io.EOF` for the first and `io.ErrUnexpectedEOF` for the
second, neither of which is the error "invalid RRQ". -/
theorem C12_short_buffer_error_is_not_invalid_request :
    ReadReq.UnmarshalBinary id ⟨[], []⟩ [] = (⟨[], []⟩, some Error.EOF) ∧
    ReadReq.UnmarshalBinary id ⟨[], []⟩ [0] = (⟨[], []⟩, some Error.ErrUnexpectedEOF) ∧
    Error.EOF ≠ Error.New "invalid RRQ" ∧
    Error.ErrUnexpectedEOF ≠ Error.New "invalid RRQ" := by
  decide

/-- Claim C12, amended. For every buffer too short to hold the operation code that
`binary.Read` asks for, `UnmarshalBinary` fails and leaves the request as it was,
with the error of `binary.Read` itself: `io.EOF` for the empty buffer and
`io.ErrUnexpectedEOF` for any other; this is never the error "invalid RRQ". -/
theorem C12_short_buffer (U : List Nat → List Nat) (q : ReadReq) (p : List Nat)
    (hshort : p.length < 8) :
    ReadReq.UnmarshalBinary U q p =
      (q, some (if p = [] then Error.EOF else Error.ErrUnexpectedEOF)) ∧
    (ReadReq.UnmarshalBinary U q p).2 ≠ some (Error.New "invalid RRQ") := by
  have hres : ReadReq.UnmarshalBinary U q p =
      (q, some (if p = [] then Error.EOF else Error.ErrUnexpectedEOF)) := by
    cases p with
    | nil => simp [ReadReq.UnmarshalBinary, binaryReadUint64]
    | cons x xs =>
      have h8 : xs.length + 1 < 8 := by simpa using hshort
      simp [ReadReq.UnmarshalBinary, binaryReadUint64, h8]
  refine ⟨hres, ?_⟩
  rw [hres]
  by_cases h : p = [] <;> simp [h]

/-- Claim C12, amended, at the two-byte buffer 0, 1. -/
theorem C12_short_buffer_witness :
    ReadReq.UnmarshalBinary id ⟨[], []⟩ [0, 1] =
      (⟨[], []⟩, some (if ([0, 1] : List Nat) = [] then Error.EOF
        else Error.ErrUnexpectedEOF)) :=
  (C12_short_buffer id ⟨[], []⟩ [0, 1] (by decide)).1

/-- Claim C13. Every datagram whose first two bytes are 0x00 0x02, the reserved
write-request code, is refused: whatever its length and the bytes that follow,
`UnmarshalBinary` returns an error (`io.ErrUnexpectedEOF` when fewer than six bytes
follow, "invalid RRQ" otherwise) and leaves the request as it was. -/
theorem C13_write_request_rejected (U : List Nat → List Nat) (q : ReadReq)
    (rest : List Nat) :
    (ReadReq.UnmarshalBinary U q (0 :: 2 :: rest)).2 ≠ none ∧
    (ReadReq.UnmarshalBinary U q (0 :: 2 :: rest)).1 = q ∧
    ((ReadReq.UnmarshalBinary U q (0 :: 2 :: rest)).2 = some Error.ErrUnexpectedEOF ∨
      (ReadReq.UnmarshalBinary U q (0 :: 2 :: rest)).2 = some (Error.New "invalid RRQ")) := by
  rcases UnmarshalBinary_prefix U q 0 2 rest (Or.inr (by decide)) with ⟨_, h⟩ | ⟨_, h⟩ <;>
    simp [h]

/-- Claim C17. For every non-empty file name `f` without 0 byte, every mode `m` that
equals "octet" up to letter case and every byte string `t`, `UnmarshalBinary` applied
to the operation code as `MarshalBinary` writes it, followed by `f`, a 0 byte, `m`,
a 0 byte and `t`, succeeds with `Filename = f` and `Mode = m`: the mode keeps the case
of its letters and `t` is ignored. -/
theorem C17_accepts_own_opcode (U : List Nat → List Nat) (q : ReadReq)
    (f m t : List Nat) (hf : f ≠ []) (hf0 : 0 ∉ f) (hm : lowerASCII m = octet) :
    ReadReq.UnmarshalBinary U q (binaryWriteOpCode [] OpRRQ ++ f ++ [0] ++ m ++ [0] ++ t) =
      (⟨f, m⟩, none) := by
  have hop : binaryReadUint64 (binaryWriteOpCode [] OpRRQ ++ f ++ [0] ++ m ++ [0] ++ t)
      = .ok (OpRRQ, f ++ 0 :: (m ++ 0 :: t)) := by
    have := binaryReadUint64_PutUint64 (f ++ 0 :: (m ++ 0 :: t))
    simpa [binaryWriteOpCode] using this
  have hm0 : 0 ∉ m := not_mem_of_lowerASCII_eq_octet m hm
  have hmne : m ≠ [] := by
    intro h
    rw [h] at hm
    exact absurd hm (by decide)
  rw [UnmarshalBinary_terminated U q _ f m t hop hf hf0 hmne hm0,
    if_pos (ToLower_of_lowerASCII_eq_octet U m hm)]

/-- Claim C17 at the file name "a", the mode "OcTeT" and the trailing bytes 1, 2, 3. -/
theorem C17_accepts_own_opcode_witness :
    ReadReq.UnmarshalBinary id ⟨[], []⟩
        (binaryWriteOpCode [] OpRRQ ++ [97] ++ [0] ++ [79, 99, 84, 101, 84] ++ [0]
          ++ [1, 2, 3]) =
      (⟨[97], [79, 99, 84, 101, 84]⟩, none) :=
  C17_accepts_own_opcode id ⟨[], []⟩ [97] [79, 99, 84, 101, 84] [1, 2, 3]
    (by decide) (by decide) (by decide)

/-! ## Data packets: consecutive calls, end of stream and failures -/

/-- After `i` calls the payload source has lost its first `i * BlockSize` bytes. -/
theorem Data.after_Payload (d : Data) (i : Nat) :
    (d.after i).Payload =
      { d.Payload with data := d.Payload.data.drop (i * BlockSize) } := by
  induction i with
  | zero => simp [Data.after]
  | succ i ih =>
    have hmul : i * BlockSize + BlockSize = (i + 1) * BlockSize :=
      (Nat.succ_mul i BlockSize).symm
    simp only [Data.after, Data.MarshalBinary_fst, ih, List.drop_drop, hmul]

/-- After `i` calls the block counter has advanced by `i`, as a `uint16`. -/
theorem Data.after_Block (d : Data) (i : Nat) :
    (d.after i).Block % 65536 = (d.Block + i) % 65536 := by
  induction i with
  | zero => simp [Data.after]
  | succ i ih =>
    simp only [Data.after, Data.MarshalBinary_fst]
    omega

/-- The call number `i` (counted from 0) on a source that reports `io.EOF` at its end
succeeds and returns the operation code, the block number `b + i + 1` as a `uint16`
and the `i`-th block of the source content. -/
theorem Data.after_MarshalBinary (d : Data) (i : Nat) (heof : d.Payload.atEnd = Error.EOF) :
    (d.after i).MarshalBinary.2 =
      .ok (PutUint64 OpData ++ PutUint16 ((d.Block + i + 1) % 65536)
        ++ blockOf d.Payload.data i) := by
  have hend : (d.after i).Payload.atEnd = Error.EOF := by
    rw [Data.after_Payload]; exact heof
  have hb : ((d.after i).Block + 1) % 65536 = (d.Block + i + 1) % 65536 := by
    have := Data.after_Block d i
    omega
  rw [Data.MarshalBinary_ok _ (Or.inr hend), hb, Data.after_Payload]
  rfl

/-- The blocks of a byte string, put one after the other, give the string back. -/
theorem flatten_blockOf (K : Nat) : ∀ content : List Nat,
    content.length < (K + 1) * BlockSize →
    ((List.range (K + 1)).map (blockOf content)).flatten = content := by
  induction K with
  | zero =>
    intro content h
    have h' : content.length ≤ BlockSize := by omega
    rw [show List.range (0 + 1) = [0] from rfl]
    simp [blockOf, List.take_of_length_le h']
  | succ K ih =>
    intro content h
    have hBS : BlockSize = 512 := rfl
    have hlen : (content.drop BlockSize).length < (K + 1) * BlockSize := by
      rw [List.length_drop]
      have hmul : (K + 1 + 1) * BlockSize = (K + 1) * BlockSize + BlockSize :=
        Nat.succ_mul _ _
      have hpos : BlockSize ≤ (K + 1) * BlockSize := Nat.le_mul_of_pos_left _ (by omega)
      omega
    have hshift : ∀ i, blockOf content (i + 1) = blockOf (content.drop BlockSize) i := by
      intro i
      have hmul : BlockSize + i * BlockSize = (i + 1) * BlockSize := by
        rw [Nat.succ_mul, Nat.add_comm]
      simp only [blockOf, List.drop_drop, hmul]
    rw [List.range_succ_eq_map, List.map_cons, List.flatten_cons, List.map_map]
    have hmap : List.map (blockOf content ∘ Nat.succ) (List.range (K + 1))
        = List.map (blockOf (content.drop BlockSize)) (List.range (K + 1)) := by
      apply List.map_congr_left
      intro i _
      exact hshift i
    rw [hmap, ih _ hlen]
    simp [blockOf]

/-- The length of the `i`-th block of a byte string. -/
theorem length_blockOf (content : List Nat) (i : Nat) :
    (blockOf content i).length = min 512 (content.length - i * 512) := by
  simp only [blockOf, List.length_take, List.length_drop, show BlockSize = 512 from rfl]

/-- A `Read` on a source that still holds bytes: up to `chunk + 1` of them are handed
out, together with the end report when the source is eager and they were the last. -/
theorem Reader.Read_of_ne_nil (r : Reader) (len : Nat) (h : r.data ≠ []) :
    r.Read len =
      (r.data.take (min len (r.chunk + 1)),
        if r.eager = true ∧ r.data.drop (min len (r.chunk + 1)) = [] then some r.atEnd
        else none,
        { r with data := r.data.drop (min len (r.chunk + 1)) }) := by
  obtain ⟨data, chunk, fail, eager⟩ := r
  cases data with
  | nil => exact absurd rfl h
  | cons x xs => rfl

/-- Claim C14, as stated, fails for a source that holds exactly one full block and
reports the error "disk" from the `Read` that hands out the block's last bytes, as
the contract of `io.Reader` allows: the read of 512 bytes returns the error, yet
`MarshalBinary` returns a packet with all 512 bytes and no error. -/
theorem C14_error_with_full_block_is_dropped :
    (Reader.Read ⟨List.replicate 512 7, 511, some (Error.New "disk"), true⟩ BlockSize).2.1
      = some (Error.New "disk") ∧
    (Data.MarshalBinary ⟨0, ⟨List.replicate 512 7, 511, some (Error.New "disk"), true⟩⟩).2
      = .ok (PutUint64 OpData ++ PutUint16 1 ++ List.replicate 512 7) := by
  constructor
  · rw [Reader.Read_of_ne_nil _ _ (by rw [List.replicate_succ]; exact List.cons_ne_nil _ _)]
    simp only [show BlockSize = 512 from rfl, Nat.min_self, List.drop_replicate,
      Nat.sub_self, List.replicate_zero, and_self, if_true, Reader.atEnd, Option.getD_some]
  · rw [Data.MarshalBinary_ok ⟨0, ⟨List.replicate 512 7, 511, some (Error.New "disk"), true⟩⟩
      (Or.inl (by rw [List.length_replicate]; decide))]
    simp only [List.take_replicate, BlockSize, DatagramSize]
    rfl

/-- Claim C14, amended. For every payload source with fewer than `BlockSize` bytes
remaining: if it reports `io.EOF` at its end, `MarshalBinary` succeeds, the payload of
the packet is exactly the remaining bytes (possibly none) and the source is left
empty; if it reports any other error at its end, that is, if its read fails before a
full block has been read, `MarshalBinary` returns that error and no packet. -/
theorem C14_end_of_stream (d : Data) (hlen : d.Payload.data.length < BlockSize) :
    (d.Payload.atEnd = Error.EOF →
      d.MarshalBinary.2 =
        .ok (binaryWriteUint16 (binaryWriteOpCode [] OpData) ((d.Block + 1) % 65536)
          ++ d.Payload.data) ∧
      d.MarshalBinary.1.Payload.data = []) ∧
    (∀ e, d.Payload.atEnd = e → e ≠ Error.EOF → d.MarshalBinary.2 = .error e) := by
  constructor
  · intro heof
    constructor
    · rw [Data.MarshalBinary_ok d (Or.inr heof), List.take_of_length_le (by omega)]
      simp [binaryWriteOpCode, binaryWriteUint16]
    · rw [Data.MarshalBinary_fst]
      exact List.drop_eq_nil_of_le (by omega)
  · intro e he hne
    rw [Data.MarshalBinary_error d hlen (he ▸ hne), he]

/-- Claim C14, amended, at a source holding the 13 bytes "Hello friend!": read to its
end, the packet carries them all; failing with "disk" after them, the call returns
"disk". -/
theorem C14_end_of_stream_witness :
    (Data.MarshalBinary
        ⟨0, ⟨[72, 101, 108, 108, 111, 32, 102, 114, 105, 101, 110, 100, 33], 3, none,
          false⟩⟩).2 =
      .ok (binaryWriteUint16 (binaryWriteOpCode [] OpData) ((0 + 1) % 65536)
        ++ [72, 101, 108, 108, 111, 32, 102, 114, 105, 101, 110, 100, 33]) ∧
    (Data.MarshalBinary
        ⟨0, ⟨[72, 101, 108, 108, 111, 32, 102, 114, 105, 101, 110, 100, 33], 3,
          some (Error.New "disk"), true⟩⟩).2 = .error (Error.New "disk") :=
  ⟨((C14_end_of_stream
      ⟨0, ⟨[72, 101, 108, 108, 111, 32, 102, 114, 105, 101, 110, 100, 33], 3, none,
        false⟩⟩ (by decide)).1 rfl).1,
   (C14_end_of_stream
      ⟨0, ⟨[72, 101, 108, 108, 111, 32, 102, 114, 105, 101, 110, 100, 33], 3,
        some (Error.New "disk"), true⟩⟩ (by decide)).2 _ rfl (by decide)⟩

/-- Claim C15, as stated, fails for k = 1: from a source holding 508 bytes the first
call on a fresh `Data` returns a packet whose payload is all 508 bytes, which is
shorter than `BlockSize`, so the sequence stops after one packet, not two, and its
last payload is not empty. -/
theorem C15_one_packet_for_508_bytes :
    (Data.MarshalBinary ⟨0, ⟨List.replicate (508 * 1) 7, 511, none, false⟩⟩).2
      = .ok (PutUint64 OpData ++ PutUint16 1 ++ List.replicate 508 7) ∧
    (List.replicate 508 7).length < BlockSize ∧
    List.replicate 508 7 ≠ ([] : List Nat) := by
  refine ⟨?_, by rw [List.length_replicate]; decide,
    by rw [List.replicate_succ]; exact List.cons_ne_nil _ _⟩
  rw [Data.MarshalBinary_ok ⟨0, ⟨List.replicate (508 * 1) 7, 511, none, false⟩⟩ (Or.inr rfl)]
  simp only [List.take_replicate, BlockSize, DatagramSize]
  rfl

/-- Claim C15, amended. For every k and every payload source that holds exactly
`BlockSize * k` = 512 k bytes and reports `io.EOF` at its end, the calls of
`MarshalBinary` on a fresh `Data` give: for each `i < k` a packet with block number
`(i + 1) mod 65536` and a payload of exactly `BlockSize` bytes, the `i`-th block of
the source; then, as call number `k + 1`, a packet with block number
`(k + 1) mod 65536` and an empty payload, the first one shorter than `BlockSize`. So
exactly k + 1 packets are produced, and their block numbers are 1, 2, ..., k + 1 as
long as these stay below 65536. -/
theorem C15_packets_of_full_blocks (k : Nat) (src : Reader)
    (hlen : src.data.length = BlockSize * k) (heof : src.atEnd = Error.EOF) :
    (∀ i, i < k →
      (Data.after ⟨0, src⟩ i).MarshalBinary.2 =
        .ok (binaryWriteUint16 (binaryWriteOpCode [] OpData) ((i + 1) % 65536)
          ++ blockOf src.data i) ∧
      (blockOf src.data i).length = BlockSize) ∧
    (Data.after ⟨0, src⟩ k).MarshalBinary.2 =
      .ok (binaryWriteUint16 (binaryWriteOpCode [] OpData) ((k + 1) % 65536)) ∧
    (∀ i, i ≤ k → i + 1 < 65536 →
      (Data.after ⟨0, src⟩ i).MarshalBinary.2 =
        .ok (binaryWriteUint16 (binaryWriteOpCode [] OpData) (i + 1)
          ++ blockOf src.data i)) := by
  have hBS : BlockSize = 512 := rfl
  have hcall : ∀ i, (Data.after ⟨0, src⟩ i).MarshalBinary.2 =
      .ok (binaryWriteUint16 (binaryWriteOpCode [] OpData) ((i + 1) % 65536)
        ++ blockOf src.data i) := by
    intro i
    rw [Data.after_MarshalBinary ⟨0, src⟩ i heof]
    simp [binaryWriteOpCode, binaryWriteUint16]
  refine ⟨?_, ?_, ?_⟩
  · intro i hi
    refine ⟨hcall i, ?_⟩
    rw [length_blockOf, hBS]
    rw [hBS] at hlen
    omega
  · rw [hcall k]
    have hnil : blockOf src.data k = [] := by
      apply List.eq_nil_of_length_eq_zero
      rw [length_blockOf]
      rw [hBS] at hlen
      omega
    rw [hnil, List.append_nil]
  · intro i _ hi
    rw [hcall i, Nat.mod_eq_of_lt hi]

/-- Claim C15, amended, at k = 2 and a source of 1024 bytes. -/
theorem C15_packets_of_full_blocks_witness :
    (Data.after ⟨0, ⟨List.replicate 1024 7, 511, none, false⟩⟩ 2).MarshalBinary.2 =
      .ok (binaryWriteUint16 (binaryWriteOpCode [] OpData) ((2 + 1) % 65536)) :=
  (C15_packets_of_full_blocks 2 ⟨List.replicate 1024 7, 511, none, false⟩
    (by rw [List.length_replicate]; decide) rfl).2.1

/-- Claim C18. For every payload source that holds `n` bytes and reports `io.EOF` at
its end, the first `n / BlockSize + 1` calls of `MarshalBinary` on the same `Data` all
succeed; call number `i` (from 0) returns the operation code, its block number and
the `i`-th block of the source content; these payloads, put one after the other in
call order, are the source content; every packet but the last carries exactly
`BlockSize` payload bytes and the last carries `n mod BlockSize`, fewer than
`BlockSize`. -/
theorem C18_payload_preserved (d : Data) (heof : d.Payload.atEnd = Error.EOF) :
    (∀ i, i ≤ d.Payload.data.length / BlockSize →
      (d.after i).MarshalBinary.2 =
        .ok (binaryWriteUint16 (binaryWriteOpCode [] OpData) ((d.Block + i + 1) % 65536)
          ++ blockOf d.Payload.data i)) ∧
    ((List.range (d.Payload.data.length / BlockSize + 1)).map
      (blockOf d.Payload.data)).flatten = d.Payload.data ∧
    (∀ i, i < d.Payload.data.length / BlockSize →
      (blockOf d.Payload.data i).length = BlockSize) ∧
    (blockOf d.Payload.data (d.Payload.data.length / BlockSize)).length
      = d.Payload.data.length % BlockSize ∧
    d.Payload.data.length % BlockSize < BlockSize := by
  have hBS : BlockSize = 512 := rfl
  refine ⟨?_, ?_, ?_, ?_, ?_⟩
  · intro i _
    rw [Data.after_MarshalBinary d i heof]
    simp [binaryWriteOpCode, binaryWriteUint16]
  · apply flatten_blockOf
    rw [hBS]
    omega
  · intro i hi
    rw [length_blockOf, hBS]
    rw [hBS] at hi
    omega
  · rw [length_blockOf, hBS]
    omega
  · rw [hBS]
    omega

/-- Claim C18 at a source holding the 13 bytes "Hello friend!": one call, whose
payload is the whole content. -/
theorem C18_payload_preserved_witness :
    (Data.after ⟨0, ⟨[72, 101, 108, 108, 111, 32, 102, 114, 105, 101, 110, 100, 33], 3,
        none, false⟩⟩ 0).MarshalBinary.2 =
      .ok (binaryWriteUint16 (binaryWriteOpCode [] OpData) ((0 + 0 + 1) % 65536)
        ++ blockOf [72, 101, 108, 108, 111, 32, 102, 114, 105, 101, 110, 100, 33] 0) :=
  (C18_payload_preserved
    ⟨0, ⟨[72, 101, 108, 108, 111, 32, 102, 114, 105, 101, 110, 100, 33], 3, none, false⟩⟩
    rfl).1 0 (Nat.zero_le _)

/-- Claim C19, as stated, fails for a source that holds exactly one full block and
reports the error "timeout" together with the block's last bytes: the copy of the
payload ends with that error, yet `MarshalBinary`, called with `Block = 7`, returns
the packet with block number 8 and no error. -/
theorem C19_failed_read_with_full_block_succeeds :
    (ReadFrom [] ⟨⟨List.replicate 512 7, 127, some (Error.New "timeout"), true⟩,
        BlockSize⟩ 0).2.2.2 = some (Error.New "timeout") ∧
    (Data.MarshalBinary
        ⟨7, ⟨List.replicate 512 7, 127, some (Error.New "timeout"), true⟩⟩).2
      = .ok (PutUint64 OpData ++ PutUint16 8 ++ List.replicate 512 7) := by
  constructor
  · rw [ReadFrom_eq]
    simp only [List.length_replicate, show BlockSize = 512 from rfl, Reader.atEnd,
      Option.getD_some]
    decide
  · rw [Data.MarshalBinary_ok
      ⟨7, ⟨List.replicate 512 7, 127, some (Error.New "timeout"), true⟩⟩
      (Or.inl (by rw [List.length_replicate]; decide))]
    simp only [List.take_replicate, BlockSize, DatagramSize]
    rfl

/-- Claim C19, amended. For every `Data` with `Block = b` and every payload source
whose read fails with an error other than `io.EOF` before a full block has been
read, `MarshalBinary` returns the error and no packet, yet `Block` is left at
`(b + 1) mod 65536`, which differs from `b` for every `uint16` value `b`; a later
successful call on that `Data`, whatever its payload source then is, carries the
block number `(b + 2) mod 65536`. -/
theorem C19_failed_call_consumes_block (d : Data) (e : Error)
    (hlen : d.Payload.data.length < BlockSize) (he : d.Payload.atEnd = e)
    (hne : e ≠ Error.EOF) :
    d.MarshalBinary.2 = .error e ∧
    d.MarshalBinary.1.Block = (d.Block + 1) % 65536 ∧
    (d.Block < 65536 → d.MarshalBinary.1.Block ≠ d.Block) ∧
    (∀ (src : Reader) (out : List Nat),
      (Data.MarshalBinary { d.MarshalBinary.1 with Payload := src }).2 = .ok out →
      out = binaryWriteUint16 (binaryWriteOpCode [] OpData) ((d.Block + 2) % 65536)
        ++ src.data.take BlockSize) := by
  have hb : d.MarshalBinary.1.Block = (d.Block + 1) % 65536 := by
    rw [Data.MarshalBinary_fst]
  refine ⟨?_, hb, ?_, ?_⟩
  · rw [Data.MarshalBinary_error d hlen (he ▸ hne), he]
  · intro hlt
    rw [hb]
    omega
  · intro src out hout
    rw [Data.MarshalBinary_snd] at hout
    split at hout
    · cases hout
      have h2 : (d.MarshalBinary.1.Block + 1) % 65536 = (d.Block + 2) % 65536 := by
        rw [hb]; omega
      simp only [h2]
      simp [binaryWriteOpCode, binaryWriteUint16]
    · cases hout

/-- Claim C19, amended, at `Block = 65535` and a source that fails with "disk" after
the two bytes "Hi". -/
theorem C19_failed_call_consumes_block_witness :
    (Data.MarshalBinary ⟨65535, ⟨[72, 105], 0, some (Error.New "disk"), false⟩⟩).2
      = .error (Error.New "disk") ∧
    (Data.MarshalBinary ⟨65535, ⟨[72, 105], 0, some (Error.New "disk"), false⟩⟩).1.Block
      = (65535 + 1) % 65536 :=
  ⟨(C19_failed_call_consumes_block
      ⟨65535, ⟨[72, 105], 0, some (Error.New "disk"), false⟩⟩ (Error.New "disk")
      (by decide) rfl (by decide)).1,
   (C19_failed_call_consumes_block
      ⟨65535, ⟨[72, 105], 0, some (Error.New "disk"), false⟩⟩ (Error.New "disk")
      (by decide) rfl (by decide)).2.1⟩

/-! ## Transfer session: stale acknowledgments -/

/-- Claim C16. In the transfer session as the specification describes it, an
acknowledgment whose block number differs from the current block of the session is
ignored: the session is unchanged and no packet is sent. -/
theorem C16_stale_ack_ignored (s : TransferSession) (block : Nat)
    (hstale : block ≠ s.data.Block) :
    s.step (SessionEvent.ack block) = (s, []) := by
  simp only [TransferSession.step, hstale, if_false]
  split <;> rfl

/-- Claim C16 at a session that waits for the ack of block 2 and receives the ack of
block 1 again. -/
theorem C16_stale_ack_ignored_witness :
    TransferSession.step
        ⟨[127, 0, 0, 1], SessionState.AwaitingAck, ⟨2, ⟨[], 0, none, false⟩⟩, 3, 3,
          [0, 0, 0, 0, 0, 0, 0, 3, 0, 2, 72, 105], 2⟩
        (SessionEvent.ack 1) =
      (⟨[127, 0, 0, 1], SessionState.AwaitingAck, ⟨2, ⟨[], 0, none, false⟩⟩, 3, 3,
          [0, 0, 0, 0, 0, 0, 0, 3, 0, 2, 72, 105], 2⟩, []) :=
  C16_stale_ack_ignored _ 1 (by decide)

end Tftp
